import Mathlib

/-!
Shallow embedding of `src/bloom_filter.py`.

The repository implements two Bloom-filter variants over a shared sizing
function `optimal_params(n, p)` (computing the bit count `m` and hash count
`k`), a `bitarray` bit store, and the external seeded hash `mmh3.hash`.

Modelling decisions:
* Python floats are modelled by real numbers; `math.log` by `Real.log`;
  Python `int(x)` (truncation toward zero) by `pytrunc`.
* `mmh3.hash(item, seed, signed=False)` is an external deterministic seeded
  hash; it is modelled as an abstract parameter `hash : String → Nat → Nat`.
* The `bitarray` bit store is a `List Bool`; `bits[i] = 1` is `List.set`,
  reading `bits[i]` is `List.getD _ false` (constructed stores have
  `length = m`, and every produced index is reduced `% m`).
* `idx % m` with `m = 0` raises `ZeroDivisionError` in Python; the
  `Except`-valued wrappers (`addE`, `containsE`) reproduce this: they fail
  exactly when at least one index is demanded (`1 ≤ k`) and `m = 0`.
-/

/-- Python `int()` applied to a real value: truncation toward zero. -/
noncomputable def pytrunc (x : ℝ) : ℤ :=
  if 0 ≤ x then ⌊x⌋ else ⌈x⌉

/-- `m = int(-(n * math.log(p)) / (math.log(2) ** 2))` from `optimal_params`. -/
noncomputable def bloom_m (n : ℤ) (p : ℝ) : ℤ :=
  pytrunc (-((n : ℝ) * Real.log p) / (Real.log 2) ^ 2)

/-- `k = max(1, int((m / n) * math.log(2)))` from `optimal_params`. -/
noncomputable def bloom_k (n : ℤ) (p : ℝ) : ℤ :=
  max 1 (pytrunc (((bloom_m n p : ℝ) / (n : ℝ)) * Real.log 2))

open Classical in
/-- `optimal_params(n, p)`: validation plus the two formulas above.
`Except.error` models a raised `ValueError`. -/
noncomputable def optimal_params (n : ℤ) (p : ℝ) : Except String (ℤ × ℤ) :=
  if n ≤ 0 then Except.error ("n must be > 0")
  else if ¬(0 < p ∧ p < 1) then Except.error ("p must be in (0,1)")
  else Except.ok (bloom_m n p, bloom_k n p)

/-- The spec's stated bit-count formula (for comparison with `bloom_m`):
`bitCount = ceil(-(expectedItems · ln(targetFPR)) / (ln 2)²)`. -/
noncomputable def spec_bitCount (n : ℤ) (p : ℝ) : ℤ :=
  ⌈-((n : ℝ) * Real.log p) / (Real.log 2) ^ 2⌉

/-- `self.bits[idx] = 1`. -/
def setBit (bits : List Bool) (i : Nat) : List Bool :=
  bits.set i true

/-- Setting every index of a list in order (the loop body of `add`). -/
def setBits (bits : List Bool) (idxs : List Nat) : List Bool :=
  idxs.foldl setBit bits

/-- Reading `self.bits[idx]` (constructed stores have `length = m` and
indices are pre-reduced `% m`, so the default is never hit in real runs). -/
def testBit (bits : List Bool) (i : Nat) : Bool :=
  bits.getD i false

namespace BloomFilterClassic

/-- `_indexes`: `mmh3.hash(item, seed, signed=False) % m` for `seed` in
`range(k)`. -/
def indexes (hash : String → Nat → Nat) (m k : Nat) (item : String) : List Nat :=
  (List.range k).map fun seed => hash item seed % m

/-- `add`: set the bit at every produced index. -/
def add (hash : String → Nat → Nat) (m k : Nat) (item : String)
    (bits : List Bool) : List Bool :=
  setBits bits (indexes hash m k item)

/-- `__contains__`: true iff the bit at every produced index is set. -/
def contains (hash : String → Nat → Nat) (m k : Nat) (item : String)
    (bits : List Bool) : Bool :=
  (indexes hash m k item).all fun i => testBit bits i

/-- `add` including the Python error behaviour: `% 0` raises
`ZeroDivisionError` as soon as one index is demanded. -/
def addE (hash : String → Nat → Nat) (m k : Nat) (item : String)
    (bits : List Bool) : Except String (List Bool) :=
  if 1 ≤ k ∧ m = 0 then Except.error ("ZeroDivisionError")
  else Except.ok (add hash m k item bits)

/-- `__contains__` including the Python error behaviour. -/
def containsE (hash : String → Nat → Nat) (m k : Nat) (item : String)
    (bits : List Bool) : Except String Bool :=
  if 1 ≤ k ∧ m = 0 then Except.error ("ZeroDivisionError")
  else Except.ok (contains hash m k item bits)

/-- A sequence of `add` calls, propagating any error. -/
def addAllE (hash : String → Nat → Nat) (m k : Nat) (items : List String)
    (bits : List Bool) : Except String (List Bool) :=
  items.foldlM (fun b it => addE hash m k it b) bits

end BloomFilterClassic

namespace BloomFilterDoubleHash

/-- `_h1_h2`: the two base hashes, with the zero-avoidance substitution
`0x9E3779B1` applied to `h2`. -/
def h1h2 (hash : String → Nat → Nat) (item : String) : Nat × Nat :=
  let h1 := hash item 0
  let h2 := hash item 1
  (h1, if h2 = 0 then 0x9E3779B1 else h2)

/-- `_indexes`: `(h1 + i * h2) % m` for `i` in `range(k)`. -/
def indexes (hash : String → Nat → Nat) (m k : Nat) (item : String) : List Nat :=
  (List.range k).map fun i => ((h1h2 hash item).1 + i * (h1h2 hash item).2) % m

/-- `add`: set the bit at every produced index. -/
def add (hash : String → Nat → Nat) (m k : Nat) (item : String)
    (bits : List Bool) : List Bool :=
  setBits bits (indexes hash m k item)

/-- `__contains__`: true iff the bit at every produced index is set. -/
def contains (hash : String → Nat → Nat) (m k : Nat) (item : String)
    (bits : List Bool) : Bool :=
  (indexes hash m k item).all fun i => testBit bits i

/-- `add` including the Python error behaviour (`% 0` raises). -/
def addE (hash : String → Nat → Nat) (m k : Nat) (item : String)
    (bits : List Bool) : Except String (List Bool) :=
  if 1 ≤ k ∧ m = 0 then Except.error ("ZeroDivisionError")
  else Except.ok (add hash m k item bits)

/-- `__contains__` including the Python error behaviour. -/
def containsE (hash : String → Nat → Nat) (m k : Nat) (item : String)
    (bits : List Bool) : Except String Bool :=
  if 1 ≤ k ∧ m = 0 then Except.error ("ZeroDivisionError")
  else Except.ok (contains hash m k item bits)

/-- A sequence of `add` calls, propagating any error. -/
def addAllE (hash : String → Nat → Nat) (m k : Nat) (items : List String)
    (bits : List Bool) : Except String (List Bool) :=
  items.foldlM (fun b it => addE hash m k it b) bits

end BloomFilterDoubleHash

/-- A constructed filter: its immutable parameters and its bit store. -/
structure FilterState where
  m : Nat
  k : Nat
  bits : List Bool

/-- A membership test threaded through the filter state, recording that each
step only reads the store: the state component is carried along unchanged. -/
def containsRun (idxs : List Nat) (s : FilterState) : FilterState × Bool :=
  idxs.foldl (fun acc i => (acc.1, acc.2 && testBit acc.1.bits i)) (s, true)

/-! ### Bit-store lemmas -/

theorem setBits_nil (bits : List Bool) : setBits bits [] = bits := rfl

theorem setBits_cons (bits : List Bool) (i : Nat) (L : List Nat) :
    setBits bits (i :: L) = setBits (setBit bits i) L := rfl

theorem length_setBit (bits : List Bool) (i : Nat) :
    (setBit bits i).length = bits.length :=
  List.length_set ..

theorem length_setBits (bits : List Bool) (L : List Nat) :
    (setBits bits L).length = bits.length := by
  induction L generalizing bits with
  | nil => rfl
  | cons i L ih => rw [setBits_cons, ih, length_setBit]

theorem testBit_setBit_self (bits : List Bool) (i : Nat) (h : i < bits.length) :
    testBit (setBit bits i) i = true := by
  simp [testBit, setBit, List.getElem?_set, h]

theorem testBit_setBit_mono (bits : List Bool) (i j : Nat)
    (h : testBit bits j = true) : testBit (setBit bits i) j = true := by
  simp only [testBit, setBit, List.getD_eq_getElem?_getD, List.getElem?_set] at *
  by_cases hij : i = j
  · subst hij
    by_cases hi : i < bits.length
    · simp [hi]
    · simp only [hi, if_false]
      rw [List.getElem?_eq_none (Nat.le_of_not_lt hi)] at h
      simp at h
  · simp [hij]
    exact h

theorem testBit_setBits_mono (bits : List Bool) (L : List Nat) (j : Nat)
    (h : testBit bits j = true) : testBit (setBits bits L) j = true := by
  induction L generalizing bits with
  | nil => exact h
  | cons i L ih => exact ih (setBit bits i) (testBit_setBit_mono bits i j h)

theorem testBit_setBits_mem (bits : List Bool) (L : List Nat) (j : Nat)
    (hj : j ∈ L) (hlt : j < bits.length) :
    testBit (setBits bits L) j = true := by
  induction L generalizing bits with
  | nil => cases hj
  | cons i L ih =>
    rw [setBits_cons]
    rcases List.mem_cons.mp hj with h | h
    · subst h
      exact testBit_setBits_mono (setBit bits j) L j (testBit_setBit_self bits j hlt)
    · exact ih (setBit bits i) h (by rw [length_setBit]; exact hlt)

theorem setBit_comm (bits : List Bool) (i j : Nat) :
    setBit (setBit bits i) j = setBit (setBit bits j) i := by
  by_cases hij : i = j
  · subst hij; rfl
  · exact (List.set_comm true true bits fun h => hij h.symm).symm

theorem setBit_idem (bits : List Bool) (i : Nat) :
    setBit (setBit bits i) i = setBit bits i :=
  List.set_set true true bits i

theorem setBits_setBit_comm (bits : List Bool) (i : Nat) (L : List Nat) :
    setBits (setBit bits i) L = setBit (setBits bits L) i := by
  induction L generalizing bits with
  | nil => rfl
  | cons j L ih =>
    rw [setBits_cons, setBit_comm bits i j, ih, setBits_cons]

theorem setBits_comm (bits : List Bool) (L₁ L₂ : List Nat) :
    setBits (setBits bits L₁) L₂ = setBits (setBits bits L₂) L₁ := by
  induction L₁ generalizing bits with
  | nil => rfl
  | cons i L₁ ih =>
    rw [setBits_cons, ih, setBits_setBit_comm, setBits_cons]

theorem setBits_idem (bits : List Bool) (L : List Nat) :
    setBits (setBits bits L) L = setBits bits L := by
  induction L generalizing bits with
  | nil => rfl
  | cons i L ih =>
    calc setBits (setBits bits (i :: L)) (i :: L)
        = setBits (setBit (setBits (setBit bits i) L) i) L := rfl
      _ = setBits (setBit (setBit (setBits bits L) i) i) L := by
            rw [setBits_setBit_comm bits i L]
      _ = setBits (setBit (setBits bits L) i) L := by rw [setBit_idem]
      _ = setBits (setBits (setBit bits i) L) L := by
            rw [← setBits_setBit_comm bits i L]
      _ = setBits (setBit bits i) L := ih (setBit bits i)
      _ = setBits bits (i :: L) := rfl

theorem testBit_replicate_false (m i : Nat) :
    testBit (List.replicate m false) i = false := by
  simp only [testBit, List.getD_eq_getElem?_getD, List.getElem?_replicate]
  split <;> rfl

theorem pytrunc_of_nonneg {x : ℝ} (h : 0 ≤ x) : pytrunc x = ⌊x⌋ :=
  if_pos h

theorem pytrunc_nonneg {x : ℝ} (h : 0 ≤ x) : 0 ≤ pytrunc x := by
  rw [pytrunc_of_nonneg h]
  exact Int.floor_nonneg.mpr h

theorem pytrunc_mono_of_nonneg {x y : ℝ} (hx : 0 ≤ x) (hxy : x ≤ y) :
    pytrunc x ≤ pytrunc y := by
  rw [pytrunc_of_nonneg hx, pytrunc_of_nonneg (hx.trans hxy)]
  exact Int.floor_mono hxy

theorem log_two_pos_aux : 0 < Real.log 2 :=
  Real.log_pos (by norm_num)

theorem bloom_arg_nonneg {n : ℤ} {p : ℝ} (hn : 0 < n) (hp0 : 0 < p) (hp1 : p < 1) :
    0 ≤ -((n : ℝ) * Real.log p) / (Real.log 2) ^ 2 := by
  apply div_nonneg _ (sq_nonneg _)
  have hn' : (0 : ℝ) < (n : ℝ) := by exact_mod_cast hn
  have hlog : Real.log p < 0 := Real.log_neg hp0 hp1
  nlinarith

theorem bloom_m_nonneg {n : ℤ} {p : ℝ} (hn : 0 < n) (hp0 : 0 < p) (hp1 : p < 1) :
    0 ≤ bloom_m n p :=
  pytrunc_nonneg (bloom_arg_nonneg hn hp0 hp1)

theorem bloom_m_one_eq_zero {p : ℝ} (hp0 : 0 < p) (hp1 : p < 1)
    (h : -Real.log p < (Real.log 2) ^ 2) : bloom_m 1 p = 0 := by
  unfold bloom_m
  rw [pytrunc_of_nonneg (bloom_arg_nonneg one_pos hp0 hp1), Int.floor_eq_zero_iff]
  refine Set.mem_Ico.mpr ⟨bloom_arg_nonneg one_pos hp0 hp1, ?_⟩
  rw [div_lt_one (by positivity)]
  push_cast
  linarith

theorem bloom_k_one_of_m_zero {p : ℝ} (h : bloom_m 1 p = 0) : bloom_k 1 p = 1 := by
  unfold bloom_k
  rw [h]
  have h0 : (((0 : ℤ) : ℝ) / ((1 : ℤ) : ℝ)) * Real.log 2 = 0 := by push_cast; ring
  rw [h0]
  have h1 : pytrunc 0 = 0 := by rw [pytrunc_of_nonneg le_rfl]; exact Int.floor_zero
  rw [h1]
  rfl

theorem neg_log_ninetenths_lt : -Real.log ((9 : ℝ)/10) < (Real.log 2) ^ 2 := by
  have h1 := Real.log_le_sub_one_of_pos (x := ((9 : ℝ)/10)⁻¹) (by norm_num)
  rw [Real.log_inv] at h1
  have h1' : -Real.log ((9 : ℝ)/10) ≤ 1/9 := by
    have : ((9 : ℝ)/10)⁻¹ - 1 = 1/9 := by norm_num
    linarith [this ▸ h1]
  have h2 := Real.log_two_gt_d9
  nlinarith

theorem neg_log_fourfifths_lt : -Real.log ((4 : ℝ)/5) < (Real.log 2) ^ 2 := by
  have h1 := Real.log_le_sub_one_of_pos (x := ((4 : ℝ)/5)⁻¹) (by norm_num)
  rw [Real.log_inv] at h1
  have h1' : -Real.log ((4 : ℝ)/5) ≤ 1/4 := by
    have : ((4 : ℝ)/5)⁻¹ - 1 = 1/4 := by norm_num
    linarith [this ▸ h1]
  have h2 := Real.log_two_gt_d9
  nlinarith

theorem bloom_arg_half : -(((1 : ℤ) : ℝ) * Real.log ((1 : ℝ)/2)) / (Real.log 2) ^ 2
    = Real.log 2 / (Real.log 2) ^ 2 := by
  rw [show ((1 : ℝ)/2) = (2 : ℝ)⁻¹ by norm_num, Real.log_inv]
  push_cast
  ring

theorem bloom_m_half : bloom_m 1 ((1 : ℝ)/2) = 1 := by
  have hl := Real.log_two_gt_d9
  have hl' := Real.log_two_lt_d9
  have hpos := log_two_pos_aux
  unfold bloom_m
  rw [bloom_arg_half, pytrunc_of_nonneg (by positivity), Int.floor_eq_iff]
  constructor
  · push_cast
    rw [le_div_iff₀ (by positivity)]
    nlinarith
  · push_cast
    rw [div_lt_iff₀ (by positivity)]
    nlinarith

theorem spec_bitCount_half : spec_bitCount 1 ((1 : ℝ)/2) = 2 := by
  have hl := Real.log_two_gt_d9
  have hl' := Real.log_two_lt_d9
  have hpos := log_two_pos_aux
  unfold spec_bitCount
  rw [bloom_arg_half, Int.ceil_eq_iff]
  constructor
  · push_cast
    rw [lt_div_iff₀ (by positivity)]
    nlinarith
  · push_cast
    rw [div_le_iff₀ (by positivity)]
    nlinarith

theorem bloom_k_half : bloom_k 1 ((1 : ℝ)/2) = 1 := by
  have hl := Real.log_two_gt_d9
  have hl' := Real.log_two_lt_d9
  have hpos := log_two_pos_aux
  unfold bloom_k
  rw [bloom_m_half]
  have h0 : (((1 : ℤ) : ℝ) / ((1 : ℤ) : ℝ)) * Real.log 2 = Real.log 2 := by
    push_cast; ring
  rw [h0, pytrunc_of_nonneg hpos.le]
  have h1 : ⌊Real.log 2⌋ = 0 :=
    Int.floor_eq_zero_iff.mpr (Set.mem_Ico.mpr ⟨hpos.le, by nlinarith⟩)
  rw [h1]
  rfl

theorem optimal_params_ok {n : ℤ} {p : ℝ} (hn : 0 < n) (hp0 : 0 < p) (hp1 : p < 1) :
    optimal_params n p = Except.ok (bloom_m n p, bloom_k n p) := by
  unfold optimal_params
  rw [if_neg (by omega), if_neg (by simp [hp0, hp1])]

theorem containsRun_eq (L : List Nat) (s : FilterState) :
    containsRun L s = (s, L.all fun i => testBit s.bits i) := by
  have aux : ∀ (L : List Nat) (p : FilterState × Bool),
      L.foldl (fun acc i => (acc.1, acc.2 && testBit acc.1.bits i)) p
        = (p.1, p.2 && L.all fun i => testBit p.1.bits i) := by
    intro L
    induction L with
    | nil => intro p; simp
    | cons i L ih =>
      intro p
      rw [List.foldl_cons, ih]
      simp [Bool.and_assoc]
  rw [containsRun, aux]
  simp

/-! ### Filter-level lemmas -/

theorem BloomFilterClassic.classic_indexes_lt (hash : String → Nat → Nat) (m k : Nat)
    (item : String) (hm : 0 < m) :
    ∀ i ∈ BloomFilterClassic.indexes hash m k item, i < m := by
  intro i hi
  rcases List.mem_map.mp hi with ⟨s, _, rfl⟩
  exact Nat.mod_lt _ hm

theorem BloomFilterDoubleHash.dh_indexes_lt (hash : String → Nat → Nat) (m k : Nat)
    (item : String) (hm : 0 < m) :
    ∀ i ∈ BloomFilterDoubleHash.indexes hash m k item, i < m := by
  intro i hi
  rcases List.mem_map.mp hi with ⟨s, _, rfl⟩
  exact Nat.mod_lt _ hm

theorem BloomFilterClassic.classic_addE_ok_iff {hash : String → Nat → Nat} {m k : Nat}
    {item : String} {bits b' : List Bool} :
    BloomFilterClassic.addE hash m k item bits = Except.ok b'
      ↔ ¬(1 ≤ k ∧ m = 0) ∧ b' = BloomFilterClassic.add hash m k item bits := by
  unfold BloomFilterClassic.addE
  by_cases hg : 1 ≤ k ∧ m = 0 <;> simp [hg, eq_comm]

theorem BloomFilterDoubleHash.dh_addE_ok_iff {hash : String → Nat → Nat} {m k : Nat}
    {item : String} {bits b' : List Bool} :
    BloomFilterDoubleHash.addE hash m k item bits = Except.ok b'
      ↔ ¬(1 ≤ k ∧ m = 0) ∧ b' = BloomFilterDoubleHash.add hash m k item bits := by
  unfold BloomFilterDoubleHash.addE
  by_cases hg : 1 ≤ k ∧ m = 0 <;> simp [hg, eq_comm]

theorem BloomFilterClassic.classic_containsE_eq {hash : String → Nat → Nat} {m k : Nat}
    {item : String} {bits : List Bool} (hg : ¬(1 ≤ k ∧ m = 0)) :
    BloomFilterClassic.containsE hash m k item bits
      = Except.ok (BloomFilterClassic.contains hash m k item bits) := by
  unfold BloomFilterClassic.containsE
  rw [if_neg hg]

theorem BloomFilterDoubleHash.dh_containsE_eq {hash : String → Nat → Nat} {m k : Nat}
    {item : String} {bits : List Bool} (hg : ¬(1 ≤ k ∧ m = 0)) :
    BloomFilterDoubleHash.containsE hash m k item bits
      = Except.ok (BloomFilterDoubleHash.contains hash m k item bits) := by
  unfold BloomFilterDoubleHash.containsE
  rw [if_neg hg]

theorem BloomFilterClassic.classic_addAllE_eq (hash : String → Nat → Nat) {m k : Nat}
    (hg : ¬(1 ≤ k ∧ m = 0)) (items : List String) (bits : List Bool) :
    BloomFilterClassic.addAllE hash m k items bits
      = Except.ok (items.foldl (fun b y => BloomFilterClassic.add hash m k y b) bits) := by
  induction items generalizing bits with
  | nil => rfl
  | cons y ys ih =>
    show BloomFilterClassic.addE hash m k y bits >>= _ = _
    unfold BloomFilterClassic.addE
    rw [if_neg hg]
    show BloomFilterClassic.addAllE hash m k ys (BloomFilterClassic.add hash m k y bits) = _
    rw [ih, List.foldl_cons]

theorem BloomFilterDoubleHash.dh_addAllE_eq (hash : String → Nat → Nat) {m k : Nat}
    (hg : ¬(1 ≤ k ∧ m = 0)) (items : List String) (bits : List Bool) :
    BloomFilterDoubleHash.addAllE hash m k items bits
      = Except.ok (items.foldl (fun b y => BloomFilterDoubleHash.add hash m k y b) bits) := by
  induction items generalizing bits with
  | nil => rfl
  | cons y ys ih =>
    show BloomFilterDoubleHash.addE hash m k y bits >>= _ = _
    unfold BloomFilterDoubleHash.addE
    rw [if_neg hg]
    show BloomFilterDoubleHash.addAllE hash m k ys (BloomFilterDoubleHash.add hash m k y bits) = _
    rw [ih, List.foldl_cons]

theorem testBit_foldl_setBits_mono (f : String → List Nat) (ys : List String)
    (b : List Bool) (i : Nat) (h : testBit b i = true) :
    testBit (ys.foldl (fun bb y => setBits bb (f y)) b) i = true := by
  induction ys generalizing b with
  | nil => exact h
  | cons y ys ih => exact ih _ (testBit_setBits_mono b (f y) i h)

theorem all_testBit_foldl_setBits (f : String → List Nat) (x : String)
    (ys : List String) (bits : List Bool) (hb : ∀ i ∈ f x, i < bits.length) :
    ((f x).all fun i =>
      testBit (ys.foldl (fun bb y => setBits bb (f y)) (setBits bits (f x))) i) = true := by
  apply List.all_eq_true.mpr
  intro i hi
  exact testBit_foldl_setBits_mono f ys _ i
    (testBit_setBits_mem bits (f x) i hi (hb i hi))

/-! ### Claims -/

/-- C9: membership tests only read the bit store: running `__contains__`
(either variant) threaded through the filter state returns the state
unchanged (same parameters, same bits) together with the usual result. -/
theorem claim_C9_test_leaves_state_unchanged :
    ∀ (hash : String → Nat → Nat) (s : FilterState) (item : String),
      containsRun (BloomFilterClassic.indexes hash s.m s.k item) s
        = (s, BloomFilterClassic.contains hash s.m s.k item s.bits) ∧
      containsRun (BloomFilterDoubleHash.indexes hash s.m s.k item) s
        = (s, BloomFilterDoubleHash.contains hash s.m s.k item s.bits) := by
  intro hash s item
  exact ⟨containsRun_eq _ s, containsRun_eq _ s⟩

/-- C10: for both variants, `add` is idempotent and commutative on the bit
store, for every hash function, parameters, items and starting state. -/
theorem claim_C10_add_idempotent_commutative :
    ∀ (hash : String → Nat → Nat) (m k : Nat) (x y : String) (bits : List Bool),
      BloomFilterClassic.add hash m k x (BloomFilterClassic.add hash m k x bits)
          = BloomFilterClassic.add hash m k x bits ∧
      BloomFilterClassic.add hash m k x (BloomFilterClassic.add hash m k y bits)
          = BloomFilterClassic.add hash m k y (BloomFilterClassic.add hash m k x bits) ∧
      BloomFilterDoubleHash.add hash m k x (BloomFilterDoubleHash.add hash m k x bits)
          = BloomFilterDoubleHash.add hash m k x bits ∧
      BloomFilterDoubleHash.add hash m k x (BloomFilterDoubleHash.add hash m k y bits)
          = BloomFilterDoubleHash.add hash m k y (BloomFilterDoubleHash.add hash m k x bits) := by
  intro hash m k x y bits
  exact ⟨setBits_idem bits (BloomFilterClassic.indexes hash m k x),
    setBits_comm bits (BloomFilterClassic.indexes hash m k y)
      (BloomFilterClassic.indexes hash m k x),
    setBits_idem bits (BloomFilterDoubleHash.indexes hash m k x),
    setBits_comm bits (BloomFilterDoubleHash.indexes hash m k y)
      (BloomFilterDoubleHash.indexes hash m k x)⟩

/-- C8 (refuted as frozen): a filter validly constructed with `n = 1`,
`p = 0.9` gets `bitCount = 0`, `hashCount = 1`; on this fresh filter (no
`add` calls, empty bit store) `test` raises `ZeroDivisionError` instead of
returning `false`, in both variants. -/
theorem claim_C8_fresh_zero_bit_filter_raises :
    optimal_params 1 ((9 : ℝ)/10) = Except.ok (0, 1) ∧
    BloomFilterClassic.containsE (fun _ _ => 0) 0 1 "a" (List.replicate 0 false)
        = Except.error ("ZeroDivisionError") ∧
    BloomFilterDoubleHash.containsE (fun _ _ => 0) 0 1 "a" (List.replicate 0 false)
        = Except.error ("ZeroDivisionError") := by
  refine ⟨?_, rfl, rfl⟩
  have hm : bloom_m 1 ((9 : ℝ)/10) = 0 :=
    bloom_m_one_eq_zero (by norm_num) (by norm_num) neg_log_ninetenths_lt
  rw [optimal_params_ok one_pos (by norm_num) (by norm_num), hm,
    bloom_k_one_of_m_zero hm]

/-- C8 amended: on a freshly constructed filter whose `bitCount` is at
least 1 (all `m` bits false, no `add` calls, `k ≥ 1` as construction
guarantees), `test` returns `false` for every item, in both variants. -/
theorem claim_C8_fresh_filter_tests_false :
    ∀ (hash : String → Nat → Nat) (m k : Nat) (item : String),
      0 < m → 1 ≤ k →
      BloomFilterClassic.containsE hash m k item (List.replicate m false)
          = Except.ok false ∧
      BloomFilterDoubleHash.containsE hash m k item (List.replicate m false)
          = Except.ok false := by
  intro hash m k item hm hk
  have hg : ¬(1 ≤ k ∧ m = 0) := by omega
  constructor
  · rw [BloomFilterClassic.classic_containsE_eq hg]
    congr 1
    apply List.all_eq_false.mpr
    refine ⟨hash item 0 % m, ?_, by simp [testBit_replicate_false]⟩
    exact List.mem_map.mpr ⟨0, List.mem_range.mpr hk, rfl⟩
  · rw [BloomFilterDoubleHash.dh_containsE_eq hg]
    congr 1
    apply List.all_eq_false.mpr
    refine ⟨((BloomFilterDoubleHash.h1h2 hash item).1
        + 0 * (BloomFilterDoubleHash.h1h2 hash item).2) % m, ?_,
      by simp [testBit_replicate_false]⟩
    exact List.mem_map.mpr ⟨0, List.mem_range.mpr hk, rfl⟩

/-- C2 (refuted, code bug): on the valid input `n = 1`, `p = 0.9` the code
returns `bitCount = 0`, violating the invariant `bitCount ≥ 1`
(`hashCount = 1` does satisfy `hashCount ≥ 1`). -/
theorem claim_C2_bitcount_zero_on_valid_input :
    optimal_params 1 ((9 : ℝ)/10)
        = Except.ok (bloom_m 1 ((9 : ℝ)/10), bloom_k 1 ((9 : ℝ)/10))
      ∧ bloom_m 1 ((9 : ℝ)/10) = 0 ∧ bloom_k 1 ((9 : ℝ)/10) = 1 := by
  have hm : bloom_m 1 ((9 : ℝ)/10) = 0 :=
    bloom_m_one_eq_zero (by norm_num) (by norm_num) neg_log_ninetenths_lt
  exact ⟨optimal_params_ok one_pos (by norm_num) (by norm_num), hm,
    bloom_k_one_of_m_zero hm⟩

/-- C3 (refuted, code bug): construction with `n = 1`, `p = 0.9` succeeds
(returning `m = 0`, `k = 1`), yet every subsequent `add` or `test` call on
either variant raises `ZeroDivisionError` (`idx % 0`). -/
theorem claim_C3_add_test_raise_after_valid_construction :
    optimal_params 1 ((9 : ℝ)/10) = Except.ok (0, 1) ∧
    (∀ (hash : String → Nat → Nat) (item : String) (bits : List Bool),
      BloomFilterClassic.addE hash 0 1 item bits
          = Except.error ("ZeroDivisionError") ∧
      BloomFilterClassic.containsE hash 0 1 item bits
          = Except.error ("ZeroDivisionError") ∧
      BloomFilterDoubleHash.addE hash 0 1 item bits
          = Except.error ("ZeroDivisionError") ∧
      BloomFilterDoubleHash.containsE hash 0 1 item bits
          = Except.error ("ZeroDivisionError")) := by
  constructor
  · have hm : bloom_m 1 ((9 : ℝ)/10) = 0 :=
      bloom_m_one_eq_zero (by norm_num) (by norm_num) neg_log_ninetenths_lt
    rw [optimal_params_ok one_pos (by norm_num) (by norm_num), hm,
      bloom_k_one_of_m_zero hm]
  · intro hash item bits
    refine ⟨?_, ?_, ?_, ?_⟩ <;> rfl

/-- Witness for C8 at `hash ≡ 0`, `m = k = 1`, item `"a"`. -/
theorem claim_C8_fresh_filter_tests_false_witness :
    BloomFilterClassic.containsE (fun _ _ => 0) 1 1 "a" (List.replicate 1 false)
        = Except.ok false ∧
    BloomFilterDoubleHash.containsE (fun _ _ => 0) 1 1 "a" (List.replicate 1 false)
        = Except.ok false :=
  claim_C8_fresh_filter_tests_false (fun _ _ => 0) 1 1 "a" (by decide) (by decide)

/-- C1: no false negatives and monotonicity, both variants: whenever
`add(x)` completes on a constructed store (`length = m`), `test(x)` returns
`true`, and still returns `true` after any further sequence of completed
`add` calls on arbitrary items. -/
theorem claim_C1_no_false_negatives :
    (∀ (hash : String → Nat → Nat) (m k : Nat) (x : String) (ys : List String)
        (bits bits₁ bits₂ : List Bool),
        bits.length = m →
        BloomFilterClassic.addE hash m k x bits = Except.ok bits₁ →
        BloomFilterClassic.addAllE hash m k ys bits₁ = Except.ok bits₂ →
        BloomFilterClassic.containsE hash m k x bits₂ = Except.ok true) ∧
    (∀ (hash : String → Nat → Nat) (m k : Nat) (x : String) (ys : List String)
        (bits bits₁ bits₂ : List Bool),
        bits.length = m →
        BloomFilterDoubleHash.addE hash m k x bits = Except.ok bits₁ →
        BloomFilterDoubleHash.addAllE hash m k ys bits₁ = Except.ok bits₂ →
        BloomFilterDoubleHash.containsE hash m k x bits₂ = Except.ok true) := by
  constructor
  · intro hash m k x ys bits bits₁ bits₂ hlen h₁ h₂
    obtain ⟨hg, rfl⟩ := BloomFilterClassic.classic_addE_ok_iff.mp h₁
    rw [BloomFilterClassic.classic_addAllE_eq hash hg] at h₂
    injection h₂ with h₂
    subst h₂
    rw [BloomFilterClassic.classic_containsE_eq hg]
    congr 1
    by_cases hk : k = 0
    · subst hk
      simp [BloomFilterClassic.contains, BloomFilterClassic.indexes]
    · have hm : 0 < m := by
        rcases Nat.eq_zero_or_pos m with h | h
        · exact absurd ⟨Nat.one_le_iff_ne_zero.mpr hk, h⟩ hg
        · exact h
      have hb : ∀ i ∈ BloomFilterClassic.indexes hash m k x, i < bits.length := by
        rw [hlen]
        exact BloomFilterClassic.classic_indexes_lt hash m k x hm
      exact all_testBit_foldl_setBits
        (fun y => BloomFilterClassic.indexes hash m k y) x ys bits hb
  · intro hash m k x ys bits bits₁ bits₂ hlen h₁ h₂
    obtain ⟨hg, rfl⟩ := BloomFilterDoubleHash.dh_addE_ok_iff.mp h₁
    rw [BloomFilterDoubleHash.dh_addAllE_eq hash hg] at h₂
    injection h₂ with h₂
    subst h₂
    rw [BloomFilterDoubleHash.dh_containsE_eq hg]
    congr 1
    by_cases hk : k = 0
    · subst hk
      simp [BloomFilterDoubleHash.contains, BloomFilterDoubleHash.indexes]
    · have hm : 0 < m := by
        rcases Nat.eq_zero_or_pos m with h | h
        · exact absurd ⟨Nat.one_le_iff_ne_zero.mpr hk, h⟩ hg
        · exact h
      have hb : ∀ i ∈ BloomFilterDoubleHash.indexes hash m k x, i < bits.length := by
        rw [hlen]
        exact BloomFilterDoubleHash.dh_indexes_lt hash m k x hm
      exact all_testBit_foldl_setBits
        (fun y => BloomFilterDoubleHash.indexes hash m k y) x ys bits hb

/-- Witness for C1: add `"a"`, then `"b"`, on a one-bit filter; `"a"` still
tests positive in both variants. -/
theorem claim_C1_no_false_negatives_witness :
    BloomFilterClassic.containsE (fun _ _ => 0) 1 1 "a" [true] = Except.ok true ∧
    BloomFilterDoubleHash.containsE (fun _ _ => 0) 1 1 "a" [true] = Except.ok true :=
  ⟨claim_C1_no_false_negatives.1 (fun _ _ => 0) 1 1 "a" ["b"] [false] [true] [true]
      rfl rfl rfl,
   claim_C1_no_false_negatives.2 (fun _ _ => 0) 1 1 "a" ["b"] [false] [true] [true]
      rfl rfl rfl⟩

/-- C4 (refuted): at `n = 1`, `p = 0.5` the code returns `bitCount = 1`
while the spec's ceiling formula gives `2`: the code truncates, it does not
take the ceiling. -/
theorem claim_C4_ceiling_counterexample :
    optimal_params 1 ((1 : ℝ)/2) = Except.ok (1, 1)
      ∧ spec_bitCount 1 ((1 : ℝ)/2) = 2 := by
  constructor
  · rw [optimal_params_ok one_pos (by norm_num) (by norm_num), bloom_m_half,
      bloom_k_half]
  · exact spec_bitCount_half

/-- C4 amended: for valid inputs the code returns
`bitCount = floor(-(n · ln p) / (ln 2)²)` (truncation of a nonnegative
value) and `hashCount = max(1, floor((bitCount / n) · ln 2))`. -/
theorem claim_C4_floor_formula :
    ∀ (n : ℤ) (p : ℝ), 0 < n → 0 < p → p < 1 →
      bloom_m n p = ⌊-((n : ℝ) * Real.log p) / (Real.log 2) ^ 2⌋ ∧
      bloom_k n p = max 1 ⌊((bloom_m n p : ℝ) / (n : ℝ)) * Real.log 2⌋ ∧
      optimal_params n p = Except.ok (bloom_m n p, bloom_k n p) := by
  intro n p hn hp0 hp1
  have hn' : (0 : ℝ) < (n : ℝ) := by exact_mod_cast hn
  have hm : bloom_m n p = ⌊-((n : ℝ) * Real.log p) / (Real.log 2) ^ 2⌋ := by
    unfold bloom_m
    exact pytrunc_of_nonneg (bloom_arg_nonneg hn hp0 hp1)
  refine ⟨hm, ?_, optimal_params_ok hn hp0 hp1⟩
  unfold bloom_k
  rw [pytrunc_of_nonneg]
  apply mul_nonneg _ log_two_pos_aux.le
  apply div_nonneg _ hn'.le
  exact_mod_cast bloom_m_nonneg hn hp0 hp1

/-- Witness for C4 amended at `n = 1`, `p = 0.5`. -/
theorem claim_C4_floor_formula_witness :
    bloom_m 1 ((1 : ℝ)/2)
        = ⌊-(((1 : ℤ) : ℝ) * Real.log ((1 : ℝ)/2)) / (Real.log 2) ^ 2⌋ ∧
      bloom_k 1 ((1 : ℝ)/2)
        = max 1 ⌊((bloom_m 1 ((1 : ℝ)/2) : ℝ) / ((1 : ℤ) : ℝ)) * Real.log 2⌋ ∧
      optimal_params 1 ((1 : ℝ)/2)
        = Except.ok (bloom_m 1 ((1 : ℝ)/2), bloom_k 1 ((1 : ℝ)/2)) :=
  claim_C4_floor_formula 1 ((1 : ℝ)/2) one_pos (by norm_num) (by norm_num)

/-- C5: `optimal_params` fails (raises `ValueError`) exactly when
`n ≤ 0` or `p` is not strictly between 0 and 1; on every other input it
returns the computed parameter pair. -/
theorem claim_C5_invalid_argument_iff :
    ∀ (n : ℤ) (p : ℝ),
      ((∃ e, optimal_params n p = Except.error e)
          ↔ n ≤ 0 ∨ ¬(0 < p ∧ p < 1)) ∧
      (¬(n ≤ 0 ∨ ¬(0 < p ∧ p < 1)) →
        optimal_params n p = Except.ok (bloom_m n p, bloom_k n p)) := by
  intro n p
  have hok : ¬(n ≤ 0 ∨ ¬(0 < p ∧ p < 1)) →
      optimal_params n p = Except.ok (bloom_m n p, bloom_k n p) := by
    intro h
    obtain ⟨h1, h2⟩ := not_or.mp h
    exact optimal_params_ok (not_le.mp h1) (not_not.mp h2).1 (not_not.mp h2).2
  refine ⟨⟨?_, ?_⟩, hok⟩
  · rintro ⟨e, he⟩
    by_contra hcon
    rw [hok hcon] at he
    exact Except.noConfusion he
  · intro h
    unfold optimal_params
    by_cases h1 : n ≤ 0
    · rw [if_pos h1]
      exact ⟨_, rfl⟩
    · rcases h with h | h2
      · exact absurd h h1
      · rw [if_neg h1, if_pos h2]
        exact ⟨_, rfl⟩

/-- Witness for C5: `n = 1`, `p = 0.5` is valid, so the call returns. -/
theorem claim_C5_invalid_argument_iff_witness :
    optimal_params 1 ((1 : ℝ)/2)
      = Except.ok (bloom_m 1 ((1 : ℝ)/2), bloom_k 1 ((1 : ℝ)/2)) :=
  (claim_C5_invalid_argument_iff 1 ((1 : ℝ)/2)).2 (by norm_num)

/-- C6: the Double-Hash index sequence is `(h1 + i·h2) mod m` for
`i in 0..k-1` with `h1 = hash(item, 0)`, `h2 = hash(item, 1)` replaced by
the fixed nonzero odd constant `0x9E3779B1` when it is zero; and for an item
with `h2 = 0`, `k ≥ 2` and bit count above the constant, indices 0 and 1 of
the sequence are distinct. -/
theorem claim_C6_double_hash_scheme :
    (∀ (hash : String → Nat → Nat) (m k : Nat) (item : String) (i : Nat),
        i < k →
        (BloomFilterDoubleHash.indexes hash m k item)[i]?
          = some ((hash item 0
              + i * (if hash item 1 = 0 then 0x9E3779B1 else hash item 1)) % m)) ∧
    ((0x9E3779B1 : Nat) % 2 = 1 ∧ (0x9E3779B1 : Nat) ≠ 0) ∧
    (∀ (hash : String → Nat → Nat) (m k : Nat) (item : String),
        hash item 1 = 0 → 2 ≤ k → 0x9E3779B1 < m →
        (BloomFilterDoubleHash.indexes hash m k item)[0]?
            = some (hash item 0 % m) ∧
        (BloomFilterDoubleHash.indexes hash m k item)[1]?
            = some ((hash item 0 + 0x9E3779B1) % m) ∧
        hash item 0 % m ≠ (hash item 0 + 0x9E3779B1) % m) := by
  have hidx : ∀ (hash : String → Nat → Nat) (m k : Nat) (item : String) (i : Nat),
      i < k →
      (BloomFilterDoubleHash.indexes hash m k item)[i]?
        = some ((hash item 0
            + i * (if hash item 1 = 0 then 0x9E3779B1 else hash item 1)) % m) := by
    intro hash m k item i hik
    unfold BloomFilterDoubleHash.indexes
    rw [List.getElem?_map, List.getElem?_range hik]
    rfl
  refine ⟨hidx, ⟨by norm_num, by norm_num⟩, ?_⟩
  intro hash m k item h2zero hk hm
  have h0 := hidx hash m k item 0 (by omega)
  have h1 := hidx hash m k item 1 (by omega)
  rw [h2zero] at h0 h1
  simp only [if_pos rfl] at h0 h1
  refine ⟨by simpa using h0, by simpa using h1, ?_⟩
  intro heq
  have hdvd : m ∣ hash item 0 + 0x9E3779B1 - hash item 0 :=
    (Nat.modEq_iff_dvd' (Nat.le_add_right _ _)).mp heq
  rw [Nat.add_sub_cancel_left] at hdvd
  have := Nat.le_of_dvd (by norm_num) hdvd
  omega

/-- Witness for C6: a hash that sends everything to 0; item `"a"`,
`k = 2`, `m = 0x9E3779B1 + 1`. -/
theorem claim_C6_double_hash_scheme_witness :
    (BloomFilterDoubleHash.indexes (fun _ _ => 0) 2654435762 2 "a")[0]?
        = some ((fun (_ : String) (_ : Nat) => 0) "a" 0 % 2654435762) ∧
    (BloomFilterDoubleHash.indexes (fun _ _ => 0) 2654435762 2 "a")[1]?
        = some (((fun (_ : String) (_ : Nat) => 0) "a" 0 + 0x9E3779B1) % 2654435762) ∧
    (fun (_ : String) (_ : Nat) => 0) "a" 0 % 2654435762
        ≠ ((fun (_ : String) (_ : Nat) => 0) "a" 0 + 0x9E3779B1) % 2654435762 :=
  claim_C6_double_hash_scheme.2.2 (fun _ _ => 0) 2654435762 2 "a" rfl
    (by norm_num) (by norm_num)

/-- C7 (refuted): strict monotonicity in the target rate fails: for
`n = 1` the rates `0.8 < 0.9` produce identical parameters (`m = 0`,
`k = 1` for both). -/
theorem claim_C7_strict_monotonicity_counterexample :
    ((4 : ℝ)/5 < (9 : ℝ)/10) ∧
    bloom_m 1 ((4 : ℝ)/5) = bloom_m 1 ((9 : ℝ)/10) ∧
    bloom_k 1 ((4 : ℝ)/5) = bloom_k 1 ((9 : ℝ)/10) := by
  have hm1 : bloom_m 1 ((4 : ℝ)/5) = 0 :=
    bloom_m_one_eq_zero (by norm_num) (by norm_num) neg_log_fourfifths_lt
  have hm2 : bloom_m 1 ((9 : ℝ)/10) = 0 :=
    bloom_m_one_eq_zero (by norm_num) (by norm_num) neg_log_ninetenths_lt
  exact ⟨by norm_num, by rw [hm1, hm2],
    by rw [bloom_k_one_of_m_zero hm1, bloom_k_one_of_m_zero hm2]⟩

/-- C7 amended: for fixed `n`, both returned parameters weakly increase as
the target rate decreases: `p₁ ≤ p₂` gives `m(p₂) ≤ m(p₁)` and
`k(p₂) ≤ k(p₁)`. -/
theorem claim_C7_weak_monotonicity :
    ∀ (n : ℤ) (p₁ p₂ : ℝ), 0 < n → 0 < p₁ → p₁ ≤ p₂ → p₂ < 1 →
      bloom_m n p₂ ≤ bloom_m n p₁ ∧ bloom_k n p₂ ≤ bloom_k n p₁ := by
  intro n p₁ p₂ hn hp1 h12 hp2
  have hp2pos : 0 < p₂ := lt_of_lt_of_le hp1 h12
  have hp1lt : p₁ < 1 := lt_of_le_of_lt h12 hp2
  have hn' : (0 : ℝ) < (n : ℝ) := by exact_mod_cast hn
  have hlog : Real.log p₁ ≤ Real.log p₂ := (Real.log_le_log_iff hp1 hp2pos).mpr h12
  have hnum : -((n : ℝ) * Real.log p₂) ≤ -((n : ℝ) * Real.log p₁) := by
    nlinarith
  have hargle : -((n : ℝ) * Real.log p₂) / (Real.log 2) ^ 2
      ≤ -((n : ℝ) * Real.log p₁) / (Real.log 2) ^ 2 :=
    div_le_div_of_nonneg_right hnum (sq_nonneg _)
  have hm : bloom_m n p₂ ≤ bloom_m n p₁ := by
    unfold bloom_m
    exact pytrunc_mono_of_nonneg (bloom_arg_nonneg hn hp2pos hp2) hargle
  refine ⟨hm, ?_⟩
  unfold bloom_k
  apply max_le_max le_rfl
  apply pytrunc_mono_of_nonneg
  · apply mul_nonneg _ log_two_pos_aux.le
    apply div_nonneg _ hn'.le
    exact_mod_cast bloom_m_nonneg hn hp2pos hp2
  · apply mul_le_mul_of_nonneg_right _ log_two_pos_aux.le
    apply div_le_div_of_nonneg_right _ hn'.le
    exact_mod_cast hm

/-- Witness for C7 amended at `n = 1`, `p₁ = 0.25 ≤ p₂ = 0.5`. -/
theorem claim_C7_weak_monotonicity_witness :
    bloom_m 1 ((1 : ℝ)/2) ≤ bloom_m 1 ((1 : ℝ)/4) ∧
    bloom_k 1 ((1 : ℝ)/2) ≤ bloom_k 1 ((1 : ℝ)/4) :=
  claim_C7_weak_monotonicity 1 ((1 : ℝ)/4) ((1 : ℝ)/2) one_pos (by norm_num)
    (by norm_num) (by norm_num)
